import Mathlib

/-!
Shallow embedding of the target-time resolution engine of
`CompletePhotoTime.cpp` (repository LetYourPhotoHaveTime).

Times (`std::time_t`, `long long`) are modelled as `Int`.  A record
(`struct Item`) carries the filesystem modification time, the optional
Windows create/write times, the optional filename-derived time (the
result of `parseFilenameTime(it.path)`, an external pure function whose
output is the only thing the core reads), the optional anchor (`shot`),
its source, and the resolved `target` with its reason string.

The five pipeline stages modelled here, in the order `main` runs them on
the sorted sequence:
  * `applyFilenameOverrideForTarget`  (override resolver),
  * `assignTargetFromShot`            (default assignment, the loop in `main`),
  * `inferMissingByInterpolation`     (gap-inference engine),
  * `makeFilledTargetsStrictlyIncreasing` (uniqueness pass).
-/

inductive ShotSource where
  | noneSrc
  | exifOrXmp
  | filename
deriving DecidableEq

structure Item where
  mtime : Int
  ctime : Option Int
  wtime : Option Int
  /-- result of `parseFilenameTime(it.path)` for this record -/
  fnameTime : Option Int
  shot : Option Int
  shotSource : ShotSource
  target : Option Int
  targetReason : String
deriving DecidableEq

structure Options where
  enableFilenameFallbackForShot : Bool
  enableFilenameOverrideForTarget : Bool
  filenameOverrideDays : Int
  anchorGapLimitDays : Int
  oneSideStep : Bool
  oneSideStepSeconds : Int
deriving DecidableEq

/-- The defaults of `struct Options` in the source. -/
def defaultOptions : Options :=
  { enableFilenameFallbackForShot := true
    enableFilenameOverrideForTarget := true
    filenameOverrideDays := 7
    anchorGapLimitDays := 90
    oneSideStep := true
    oneSideStepSeconds := 1 }

/-- Source `absDiffSec`: `llabs((long long)a - (long long)b)`. -/
def absDiffSec (a b : Int) : Int := ((a - b).natAbs : Int)

/-- Source `applyFilenameOverrideForTarget` (Windows build: when both `ctime` and
`wtime` were read, both drifts must exceed the threshold; otherwise the
fallback compares `mtime` only). -/
def applyFilenameOverrideForTarget (opt : Options) (it : Item) : Item :=
  if opt.enableFilenameOverrideForTarget = false then it
  else
    match it.fnameTime with
    | none => it
    | some nt =>
        let thresholdSec := opt.filenameOverrideDays * 86400
        match it.ctime, it.wtime with
        | some c, some w =>
            if absDiffSec c nt > thresholdSec ∧ absDiffSec w nt > thresholdSec then
              { it with target := some nt,
                        targetReason := "filename override (fs create/write too far)" }
            else it
        | _, _ =>
            if absDiffSec it.mtime nt > thresholdSec then
              { it with target := some nt,
                        targetReason := "filename override (mtime too far)" }
            else it

/-- The default-assignment loop in `main`:
`if (!it.target && it.shot) { it.target = it.shot; it.targetReason = ... }`. -/
def assignTargetFromShot (it : Item) : Item :=
  match it.target, it.shot with
  | none, some s =>
      { it with target := some s,
                targetReason :=
                  if it.shotSource = ShotSource.filename then "shot from filename"
                  else "shot from metadata" }
  | _, _ => it

/-- Source `setIfEmptyTarget` inside `inferMissingByInterpolation`. -/
def setIfEmptyTarget (t : Int) (reason : String) (it : Item) : Item :=
  match it.target with
  | none => { it with target := some t, targetReason := reason }
  | some _ => it

/-- The per-position assignment the gap-inference engine computes for the
`k`-th record (1-indexed) of a segment of `m` anchor-less records bounded
by the optional anchors `Tp` (before) and `Tn` (after): the proposed time
and reason, or `none` when there is no anchor on either side. -/
def segTime (opt : Options) (Tp Tn : Option Int) (m : Nat) (k : Nat) :
    Option (Int × String) :=
  match Tp, Tn with
  | some p, some q =>
      let gap : Int := q - p
      if ((gap.natAbs : Int)) > opt.anchorGapLimitDays * 86400 then
        some (if k - 1 < m / 2 then p else q, "gap too large -> nearest anchor fill")
      else if ((gap.natAbs : Int)) < (m : Int) + 1 then
        some (p + (if 0 ≤ gap then 1 else -1) * (k : Int) * opt.oneSideStepSeconds,
              "anchors too close -> step-filled")
      else
        some (p + Int.tdiv (gap * (k : Int)) ((m : Int) + 1),
              "interpolated between anchors")
  | some p, none =>
      some ((if opt.oneSideStep then p + (k : Int) * opt.oneSideStepSeconds else p),
            if opt.oneSideStep then "only prev anchor -> filled +1s steps"
            else "only prev anchor -> filled")
  | none, some q =>
      some ((if opt.oneSideStep then q - ((m : Int) - (k : Int) + 1) * opt.oneSideStepSeconds
             else q),
            if opt.oneSideStep then "only next anchor -> filled -1s steps"
            else "only next anchor -> filled")
  | none, none => none

/-- Apply `segTime` to one record through `setIfEmptyTarget`. -/
def applySegTime (opt : Options) (Tp Tn : Option Int) (m k : Nat) (it : Item) : Item :=
  match segTime opt Tp Tn m k with
  | some (t, r) => setIfEmptyTarget t r it
  | none => it

/-- Fill a segment, numbering its records `k, k+1, ...` (1-indexed). -/
def fillSegGo (opt : Options) (Tp Tn : Option Int) (m : Nat) :
    Nat → List Item → List Item
  | _, [] => []
  | k, it :: rest => applySegTime opt Tp Tn m k it :: fillSegGo opt Tp Tn m (k + 1) rest

def fillSeg (opt : Options) (Tp Tn : Option Int) (run : List Item) : List Item :=
  fillSegGo opt Tp Tn run.length 1 run

def isMissingShot (it : Item) : Bool := it.shot.isNone

/-- The scan of `inferMissingByInterpolation`: walk the sorted sequence,
carrying the nearest anchor time seen so far (`Tp`); at each maximal run
of records without `shot`, fill it from `Tp` and the anchor just after
the run (`Tn`), if any. -/
def inferGo (opt : Options) : Option Int → List Item → List Item
  | _, [] => []
  | Tp, it :: rest =>
      if isMissingShot it then
        fillSeg opt Tp ((rest.dropWhile isMissingShot).head?.bind (fun x => x.shot))
            ((it :: rest).takeWhile isMissingShot)
          ++ inferGo opt Tp (rest.dropWhile isMissingShot)
      else
        it :: inferGo opt it.shot rest
termination_by _ l => l.length
decreasing_by
  all_goals simp only [List.length_cons]
  · exact Nat.lt_succ_of_le ((List.dropWhile_sublist _).length_le)
  · exact Nat.lt_succ_self _

def inferMissingByInterpolation (opt : Options) (items : List Item) : List Item :=
  inferGo opt none items

/-- The loop body of `makeFilledTargetsStrictlyIncreasing` on one record:
a record with a `target` and no `shot` whose target does not exceed
`prevT` is bumped to `prevT + step` with "unique(+1s steps)" appended. -/
def bumpRecord (step : Int) (prevT : Option Int) (it : Item) : Item :=
  match it.target, prevT with
  | some t, some pt =>
      if it.shot = none ∧ t ≤ pt then
        { it with target := some (pt + step),
                  targetReason :=
                    (if it.targetReason ≠ "" then it.targetReason ++ " + "
                     else it.targetReason) ++ "unique(+1s steps)" }
      else it
  | _, _ => it

/-- The `prevTarget` update: records without a target are skipped. -/
def updatePrev (prevT : Option Int) (it : Item) : Option Int :=
  match it.target with
  | some t => some t
  | none => prevT

def uniqGo (step : Int) (prevT : Option Int) : List Item → List Item
  | [] => []
  | it :: rest =>
      bumpRecord step prevT it ::
        uniqGo step (updatePrev prevT (bumpRecord step prevT it)) rest

def makeFilledTargetsStrictlyIncreasing (opt : Options) (items : List Item) : List Item :=
  uniqGo (max 1 opt.oneSideStepSeconds) none items

/-- The stage sequence of `main` from the sorted record list on:
override (when enabled), default assignment, gap inference, uniqueness. -/
def resolveTargets (opt : Options) (items : List Item) : List Item :=
  let items1 :=
    if opt.enableFilenameOverrideForTarget then
      items.map (applyFilenameOverrideForTarget opt)
    else items
  let items2 := items1.map assignTargetFromShot
  let items3 := inferMissingByInterpolation opt items2
  makeFilledTargetsStrictlyIncreasing opt items3

/-- The last set target among a (prefix of the) record sequence:
the "previous resolved record's final target, of any origin". -/
def lastResolved (l : List Item) : Option Int :=
  (l.filterMap (fun x => x.target)).getLast?

/-! Concrete records used in examples and counterexamples. -/

/-- A record with no anchor and no target yet. -/
def missingRec : Item := ⟨0, none, none, none, none, ShotSource.noneSrc, none, ""⟩

/-- An anchor record whose target has already been set to its shot time. -/
def anchorRec (t : Int) : Item :=
  ⟨0, none, none, none, some t, ShotSource.exifOrXmp, some t, ""⟩

/-- An anchor record before Default Assignment (target still unset). -/
def anchorNoTargetRec (t : Int) : Item :=
  ⟨0, none, none, none, some t, ShotSource.exifOrXmp, none, ""⟩

/-- An anchor-less record carrying an already-inferred target. -/
def filledRec (t : Int) : Item := ⟨0, none, none, none, none, ShotSource.noneSrc, some t, ""⟩

/-- An anchor-less record whose filename time 50 is far from its mtime. -/
def overrideCandidateRec : Item :=
  ⟨10000000, none, none, some 50, none, ShotSource.noneSrc, none, ""⟩

/-- A record with both Windows reference times, far from filename time 100. -/
def twoRefRec : Item :=
  ⟨1000000, some 2000000, some 3000000, some 100, none, ShotSource.noneSrc, none, ""⟩

/-- A record with no Windows reference times, mtime far from filename time 100. -/
def oneRefRec : Item :=
  ⟨1000000, none, none, some 100, none, ShotSource.noneSrc, none, ""⟩

/-! ### Basic list facts used by the segment scan -/

theorem takeWhile_append_not {p : Item → Bool} {x : Item} (hx : p x = false)
    (l₁ l₂ : List Item) :
    (l₁ ++ x :: l₂).takeWhile p = l₁.takeWhile p := by
  induction l₁ with
  | nil => simp [List.takeWhile_cons, hx]
  | cons y ys ih =>
      simp only [List.cons_append, List.takeWhile_cons]
      cases h : p y <;> simp [ih]

theorem dropWhile_append_not {p : Item → Bool} {x : Item} (hx : p x = false)
    (l₁ l₂ : List Item) :
    (l₁ ++ x :: l₂).dropWhile p = l₁.dropWhile p ++ x :: l₂ := by
  induction l₁ with
  | nil => simp [List.dropWhile_cons, hx]
  | cons y ys ih =>
      simp only [List.cons_append, List.dropWhile_cons]
      cases h : p y <;> simp [ih]

theorem dropWhile_head_not {p : Item → Bool} {l : List Item} {x : Item} {t : List Item}
    (h : l.dropWhile p = x :: t) : p x = false := by
  have := List.head?_dropWhile_not p l
  rw [h] at this
  simpa using this

/-! ### Length and element lemmas for the segment filler -/

theorem length_fillSegGo (opt : Options) (Tp Tn : Option Int) (m : Nat) :
    ∀ (k : Nat) (l : List Item), (fillSegGo opt Tp Tn m k l).length = l.length := by
  intro k l
  induction l generalizing k with
  | nil => rfl
  | cons it rest ih => simp [fillSegGo, ih]

theorem getElem?_fillSegGo (opt : Options) (Tp Tn : Option Int) (m : Nat) :
    ∀ (k j : Nat) (l : List Item),
      (fillSegGo opt Tp Tn m k l)[j]? = (l[j]?).map (applySegTime opt Tp Tn m (k + j)) := by
  intro k j l
  induction l generalizing k j with
  | nil => simp [fillSegGo]
  | cons it rest ih =>
      cases j with
      | zero => simp [fillSegGo]
      | succ j' =>
          simp only [fillSegGo, List.getElem?_cons_succ, ih (k + 1) j']
          have : k + 1 + j' = k + (j' + 1) := by omega
          rw [this]

/-! ### Unfolding lemmas for the gap-inference scan -/

theorem inferGo_nil (opt : Options) (Tp : Option Int) : inferGo opt Tp [] = [] := by
  rw [inferGo]

theorem inferGo_cons_anchor (opt : Options) (Tp : Option Int) (it : Item)
    (rest : List Item) (h : isMissingShot it = false) :
    inferGo opt Tp (it :: rest) = it :: inferGo opt it.shot rest := by
  rw [inferGo]
  simp [h]

theorem inferGo_cons_missing (opt : Options) (Tp : Option Int) (it : Item)
    (rest : List Item) (h : isMissingShot it = true) :
    inferGo opt Tp (it :: rest) =
      fillSeg opt Tp ((rest.dropWhile isMissingShot).head?.bind (fun x => x.shot))
          ((it :: rest).takeWhile isMissingShot)
        ++ inferGo opt Tp (rest.dropWhile isMissingShot) := by
  rw [inferGo]
  simp [h]

theorem head?_append_cons (u : List Item) (a : Item) (v w : List Item) :
    (u ++ a :: v).head? = (u ++ a :: w).head? := by
  cases u <;> simp

theorem isMissingShot_false_of_shot {a : Item} {t : Int} (ha : a.shot = some t) :
    isMissingShot a = false := by
  simp [isMissingShot, ha]

theorem length_takeWhile_add_dropWhile (p : Item → Bool) (l : List Item) :
    (l.takeWhile p).length + (l.dropWhile p).length = l.length := by
  rw [← List.length_append, List.takeWhile_append_dropWhile]

theorem length_inferGo_fuel (opt : Options) :
    ∀ (n : Nat) (l : List Item), l.length ≤ n → ∀ Tp,
      (inferGo opt Tp l).length = l.length := by
  intro n
  induction n with
  | zero =>
      intro l hl Tp
      have h0 : l = [] := List.length_eq_zero.mp (Nat.le_zero.mp hl)
      subst h0
      simp [inferGo_nil]
  | succ n ih =>
      intro l hl Tp
      cases l with
      | nil => simp [inferGo_nil]
      | cons it rest =>
          have hrest : rest.length ≤ n := by
            simpa using Nat.le_of_succ_le_succ (by simpa using hl)
          by_cases h : isMissingShot it = true
          · rw [inferGo_cons_missing opt Tp it rest h]
            have hdw : (rest.dropWhile isMissingShot).length ≤ n :=
              le_trans ((List.dropWhile_sublist _).length_le) hrest
            rw [List.length_append, ih _ hdw Tp, fillSeg, length_fillSegGo,
              List.takeWhile_cons, if_pos h]
            have h2 := length_takeWhile_add_dropWhile isMissingShot rest
            simp only [List.length_cons]
            omega
          · have h' : isMissingShot it = false := by simpa using h
            rw [inferGo_cons_anchor opt Tp it rest h']
            simp [ih rest hrest it.shot]

theorem length_inferGo (opt : Options) (Tp : Option Int) (l : List Item) :
    (inferGo opt Tp l).length = l.length :=
  length_inferGo_fuel opt l.length l (le_refl _) Tp

theorem inferGo_append_anchor_fuel (opt : Options) (a : Item) (t0 : Int)
    (ha : a.shot = some t0) (l₂ : List Item) :
    ∀ (n : Nat) (l₁ : List Item), l₁.length ≤ n → ∀ Tp,
      inferGo opt Tp (l₁ ++ a :: l₂) =
        inferGo opt Tp (l₁ ++ [a]) ++ inferGo opt (some t0) l₂ := by
  have hpa : isMissingShot a = false := isMissingShot_false_of_shot ha
  intro n
  induction n with
  | zero =>
      intro l₁ hl Tp
      have h0 : l₁ = [] := List.length_eq_zero.mp (Nat.le_zero.mp hl)
      subst h0
      simp only [List.nil_append]
      rw [inferGo_cons_anchor opt Tp a l₂ hpa, inferGo_cons_anchor opt Tp a [] hpa,
        inferGo_nil, ha]
      simp
  | succ n ih =>
      intro l₁ hl Tp
      cases l₁ with
      | nil =>
          simp only [List.nil_append]
          rw [inferGo_cons_anchor opt Tp a l₂ hpa, inferGo_cons_anchor opt Tp a [] hpa,
            inferGo_nil, ha]
          simp
      | cons x xs =>
          have hxs : xs.length ≤ n := by
            simpa using Nat.le_of_succ_le_succ (by simpa using hl)
          by_cases hx : isMissingShot x = true
          · rw [List.cons_append, inferGo_cons_missing opt Tp x (xs ++ a :: l₂) hx,
              List.cons_append, inferGo_cons_missing opt Tp x (xs ++ [a]) hx]
            have htw : ((x :: xs) ++ a :: l₂).takeWhile isMissingShot
                = ((x :: xs) ++ [a]).takeWhile isMissingShot := by
              rw [takeWhile_append_not hpa, takeWhile_append_not hpa]
            have hdw1 : (xs ++ a :: l₂).dropWhile isMissingShot
                = xs.dropWhile isMissingShot ++ a :: l₂ := dropWhile_append_not hpa xs l₂
            have hdw2 : (xs ++ [a]).dropWhile isMissingShot
                = xs.dropWhile isMissingShot ++ [a] := dropWhile_append_not hpa xs []
            have hhd : ((xs ++ a :: l₂).dropWhile isMissingShot).head?
                = ((xs ++ [a]).dropWhile isMissingShot).head? := by
              rw [hdw1, hdw2]
              exact head?_append_cons _ a l₂ []
            simp only [List.cons_append] at htw
            rw [htw, hhd, hdw1, hdw2]
            have hdwlen : (xs.dropWhile isMissingShot).length ≤ n :=
              le_trans ((List.dropWhile_sublist _).length_le) hxs
            rw [ih (xs.dropWhile isMissingShot) hdwlen Tp, List.append_assoc]
          · have hx' : isMissingShot x = false := by simpa using hx
            rw [List.cons_append, inferGo_cons_anchor opt Tp x (xs ++ a :: l₂) hx',
              List.cons_append, inferGo_cons_anchor opt Tp x (xs ++ [a]) hx',
              ih xs hxs x.shot, List.cons_append]

theorem inferGo_append_anchor (opt : Options) (a : Item) (t0 : Int)
    (ha : a.shot = some t0) (l₁ l₂ : List Item) (Tp : Option Int) :
    inferGo opt Tp (l₁ ++ a :: l₂) =
      inferGo opt Tp (l₁ ++ [a]) ++ inferGo opt (some t0) l₂ :=
  inferGo_append_anchor_fuel opt a t0 ha l₂ l₁.length l₁ (le_refl _) Tp

theorem inferGo_run_mid (opt : Options) (Tp : Option Int) (r : Item) (run' : List Item)
    (hrun : ∀ x ∈ r :: run', isMissingShot x = true)
    (b : Item) (q : Int) (hb : b.shot = some q) (post : List Item) :
    inferGo opt Tp ((r :: run') ++ b :: post) =
      fillSeg opt Tp (some q) (r :: run') ++ b :: inferGo opt (some q) post := by
  have hpb : isMissingShot b = false := isMissingShot_false_of_shot hb
  rw [List.cons_append, inferGo_cons_missing opt Tp r (run' ++ b :: post)
    (hrun r (List.mem_cons_self r run'))]
  have htw : (r :: (run' ++ b :: post)).takeWhile isMissingShot = r :: run' := by
    have h1 : ((r :: run') ++ b :: post).takeWhile isMissingShot
        = (r :: run').takeWhile isMissingShot := takeWhile_append_not hpb _ _
    simp only [List.cons_append] at h1
    rw [h1]
    exact List.takeWhile_eq_self_iff.mpr hrun
  have hdw : (run' ++ b :: post).dropWhile isMissingShot = b :: post := by
    rw [dropWhile_append_not hpb run' post,
      List.dropWhile_eq_nil_iff.mpr (fun x hx => hrun x (List.mem_cons_of_mem r hx))]
    simp
  rw [htw, hdw]
  rw [inferGo_cons_anchor opt Tp b post hpb, hb]
  simp [hb]

theorem inferGo_run_end (opt : Options) (Tp : Option Int) (run : List Item)
    (hrun : ∀ x ∈ run, isMissingShot x = true) :
    inferGo opt Tp run = fillSeg opt Tp none run := by
  cases run with
  | nil => simp [inferGo_nil, fillSeg, fillSegGo]
  | cons r run' =>
      rw [inferGo_cons_missing opt Tp r run' (hrun r (List.mem_cons_self r run'))]
      have hdw : run'.dropWhile isMissingShot = [] :=
        List.dropWhile_eq_nil_iff.mpr (fun x hx => hrun x (List.mem_cons_of_mem r hx))
      have htw : (r :: run').takeWhile isMissingShot = r :: run' :=
        List.takeWhile_eq_self_iff.mpr hrun
      rw [hdw, htw, inferGo_nil]
      simp

theorem getElem?_fillSeg (opt : Options) (Tp Tn : Option Int) (run : List Item) (j : Nat) :
    (fillSeg opt Tp Tn run)[j]? =
      (run[j]?).map (applySegTime opt Tp Tn run.length (1 + j)) := by
  rw [fillSeg, getElem?_fillSegGo]

theorem missing_of_shot_none {run : List Item} (hrun : ∀ x ∈ run, x.shot = none) :
    ∀ x ∈ run, isMissingShot x = true := by
  intro x hx
  simp [isMissingShot, hrun x hx]


/-- Element description of the gap-inference output on a two-sided segment:
in `pre ++ a :: run ++ b :: post` with anchors `a` (time `p`) and `b`
(time `q`) around the anchor-less `run`, the record at overall position
`pre.length + k` (the `k`-th of the segment, 1-indexed) is the `k`-th
record of `run` transformed by the regime assignment. -/
theorem infer_two_sided_get (opt : Options) (pre post run : List Item) (a b : Item)
    (p q : Int) (k : Nat) (ha : a.shot = some p) (hb : b.shot = some q)
    (hrun : ∀ x ∈ run, x.shot = none) (hk1 : 1 ≤ k) (hkm : k ≤ run.length) :
    (inferMissingByInterpolation opt (pre ++ a :: (run ++ b :: post)))[pre.length + k]?
      = (run[k - 1]?).map (applySegTime opt (some p) (some q) run.length k) := by
  cases run with
  | nil => exact absurd (le_trans hk1 hkm) (by simp)
  | cons r run' =>
      rw [inferMissingByInterpolation,
        inferGo_append_anchor opt a p ha pre (r :: run' ++ b :: post) none]
      rw [inferGo_run_mid opt (some p) r run' (missing_of_shot_none hrun) b q hb post]
      have hlen : (inferGo opt none (pre ++ [a])).length = pre.length + 1 := by
        rw [length_inferGo]; simp
      rw [List.getElem?_append_right (by omega : (inferGo opt none (pre ++ [a])).length ≤ pre.length + k)]
      rw [hlen]
      have hidx : pre.length + k - (pre.length + 1) = k - 1 := by omega
      rw [hidx]
      have hklt : k - 1 < (fillSeg opt (some p) (some q) (r :: run')).length := by
        rw [fillSeg, length_fillSegGo]
        omega
      rw [List.getElem?_append_left hklt, getElem?_fillSeg]
      have hk' : 1 + (k - 1) = k := by omega
      rw [hk']

/-- Element description on a one-sided segment with only a previous anchor:
the list ends with the anchor-less `run`. -/
theorem infer_one_sided_prev_get (opt : Options) (pre run : List Item) (a : Item)
    (p : Int) (k : Nat) (ha : a.shot = some p)
    (hrun : ∀ x ∈ run, x.shot = none) (hk1 : 1 ≤ k) (hkm : k ≤ run.length) :
    (inferMissingByInterpolation opt (pre ++ a :: run))[pre.length + k]?
      = (run[k - 1]?).map (applySegTime opt (some p) none run.length k) := by
  rw [inferMissingByInterpolation,
    inferGo_append_anchor opt a p ha pre run none,
    inferGo_run_end opt (some p) run (missing_of_shot_none hrun)]
  have hlen : (inferGo opt none (pre ++ [a])).length = pre.length + 1 := by
    rw [length_inferGo]; simp
  rw [List.getElem?_append_right (by omega : (inferGo opt none (pre ++ [a])).length ≤ pre.length + k)]
  rw [hlen]
  have hidx : pre.length + k - (pre.length + 1) = k - 1 := by omega
  rw [hidx, getElem?_fillSeg]
  have hk' : 1 + (k - 1) = k := by omega
  rw [hk']

/-- Element description on a one-sided segment with only a next anchor:
the list starts with the anchor-less `run`. -/
theorem infer_one_sided_next_get (opt : Options) (run post : List Item) (b : Item)
    (q : Int) (k : Nat) (hb : b.shot = some q)
    (hrun : ∀ x ∈ run, x.shot = none) (hk1 : 1 ≤ k) (hkm : k ≤ run.length) :
    (inferMissingByInterpolation opt (run ++ b :: post))[k - 1]?
      = (run[k - 1]?).map (applySegTime opt none (some q) run.length k) := by
  cases run with
  | nil => exact absurd (le_trans hk1 hkm) (by simp)
  | cons r run' =>
      rw [inferMissingByInterpolation,
        inferGo_run_mid opt none r run' (missing_of_shot_none hrun) b q hb post]
      have hklt : k - 1 < (fillSeg opt none (some q) (r :: run')).length := by
        rw [fillSeg, length_fillSegGo]
        omega
      rw [List.getElem?_append_left hklt, getElem?_fillSeg]
      have hk' : 1 + (k - 1) = k := by omega
      rw [hk']

/-! ### Bounds for truncated division used by the interpolation regime -/

theorem tdiv_bounds_pos (g : Int) (k m : Nat) (hk1 : 1 ≤ k) (hkm : k ≤ m)
    (hg : (m : Int) + 1 ≤ g) :
    1 ≤ Int.tdiv (g * (k : Int)) ((m : Int) + 1) ∧
      Int.tdiv (g * (k : Int)) ((m : Int) + 1) ≤ g - 1 := by
  have hd : (0 : Int) < (m : Int) + 1 := by positivity
  have hgpos : (0 : Int) < g := lt_of_lt_of_le hd hg
  have hknn : (0 : Int) ≤ (k : Int) := Int.ofNat_nonneg k
  have hnum : (0 : Int) ≤ g * (k : Int) := mul_nonneg (le_of_lt hgpos) hknn
  rw [Int.tdiv_eq_ediv hnum (le_of_lt hd)]
  constructor
  · rw [Int.le_ediv_iff_mul_le hd, one_mul]
    have hk1' : (1 : Int) ≤ (k : Int) := by exact_mod_cast hk1
    have : g * 1 ≤ g * (k : Int) := mul_le_mul_of_nonneg_left hk1' (le_of_lt hgpos)
    linarith
  · have hlt : g * (k : Int) / ((m : Int) + 1) < g := by
      rw [Int.ediv_lt_iff_lt_mul hd]
      have hkd : ((k : Int)) < (m : Int) + 1 := by
        have : (k : Int) ≤ (m : Int) := by exact_mod_cast hkm
        linarith
      calc g * (k : Int) < g * ((m : Int) + 1) := by
            exact mul_lt_mul_of_pos_left hkd hgpos
        _ = g * ((m : Int) + 1) := rfl
    omega

theorem tdiv_bounds_neg (g : Int) (k m : Nat) (hk1 : 1 ≤ k) (hkm : k ≤ m)
    (hgneg : g < 0) (hg : (m : Int) + 1 ≤ (g.natAbs : Int)) :
    g + 1 ≤ Int.tdiv (g * (k : Int)) ((m : Int) + 1) ∧
      Int.tdiv (g * (k : Int)) ((m : Int) + 1) ≤ -1 := by
  have habs : (g.natAbs : Int) = -g := Int.ofNat_natAbs_of_nonpos (le_of_lt hgneg)
  rw [habs] at hg
  have hpos := tdiv_bounds_pos (-g) k m hk1 hkm hg
  have hrw : g * (k : Int) = -((-g) * (k : Int)) := by ring
  rw [hrw, Int.neg_tdiv]
  omega

/-! ### Lemmas about the uniqueness pass -/

theorem length_uniqGo (step : Int) : ∀ (l : List Item) (prevT : Option Int),
    (uniqGo step prevT l).length = l.length := by
  intro l
  induction l with
  | nil => intro prevT; rfl
  | cons it rest ih => intro prevT; simp [uniqGo, ih]

theorem uniqGo_getElem? (step : Int) : ∀ (l : List Item) (prevT : Option Int) (i : Nat),
    (uniqGo step prevT l)[i]? =
      (l[i]?).map
        (bumpRecord step (((uniqGo step prevT l).take i).foldl updatePrev prevT)) := by
  intro l
  induction l with
  | nil => intro prevT i; simp [uniqGo]
  | cons it rest ih =>
      intro prevT i
      cases i with
      | zero => simp [uniqGo]
      | succ i' =>
          simp only [uniqGo, List.getElem?_cons_succ, List.take_succ_cons, List.foldl_cons]
          exact ih (updatePrev prevT (bumpRecord step prevT it)) i'

theorem foldl_updatePrev_eq (l : List Item) : ∀ (prevT : Option Int),
    l.foldl updatePrev prevT = (lastResolved l).elim prevT some := by
  induction l with
  | nil => intro prevT; simp [lastResolved]
  | cons x s ih =>
      intro prevT
      rw [List.foldl_cons, ih (updatePrev prevT x)]
      cases hx : x.target with
      | none =>
          have hup : updatePrev prevT x = prevT := by simp [updatePrev, hx]
          rw [hup]
          simp [lastResolved, List.filterMap_cons, hx]
      | some t =>
          have hup : updatePrev prevT x = some t := by simp [updatePrev, hx]
          rw [hup]
          simp only [lastResolved, List.filterMap_cons, hx]
          cases hu : s.filterMap (fun x => x.target) with
          | nil => simp [lastResolved, hu]
          | cons v vs =>
              cases h2 : (v :: vs).getLast? with
              | none => exact absurd (List.getLast?_eq_none_iff.mp h2) (by simp)
              | some u => simp [lastResolved, hu, h2]

theorem bumpRecord_shot_some (step : Int) (prevT : Option Int) (it : Item)
    (h : it.shot.isSome) : bumpRecord step prevT it = it := by
  have hne : ¬ it.shot = none := by
    cases hs : it.shot
    · rw [hs] at h; simp at h
    · simp
  cases hT : it.target with
  | none => cases prevT <;> simp [bumpRecord, hT]
  | some t => cases prevT <;> simp [bumpRecord, hT, hne]

theorem bumpRecord_shot (step : Int) (prevT : Option Int) (it : Item) :
    (bumpRecord step prevT it).shot = it.shot := by
  cases hT : it.target <;> cases prevT <;> simp [bumpRecord, hT] <;> split <;> rfl

theorem bumpRecord_target_isSome (step : Int) (prevT : Option Int) (it : Item) :
    (bumpRecord step prevT it).target.isSome = it.target.isSome := by
  cases hT : it.target <;> cases prevT <;> simp [bumpRecord, hT] <;> split <;> simp [hT]

theorem bumpRecord_idem (step : Int) (hstep : 0 < step) (prevT : Option Int) (it : Item) :
    bumpRecord step prevT (bumpRecord step prevT it) = bumpRecord step prevT it := by
  cases hT : it.target with
  | none => cases prevT <;> simp [bumpRecord, hT]
  | some t =>
      cases hP : prevT with
      | none => simp [bumpRecord, hT]
      | some pt =>
          by_cases hc : it.shot = none ∧ t ≤ pt
          · have h1 : bumpRecord step (some pt) it =
                { it with target := some (pt + step),
                          targetReason :=
                            (if it.targetReason ≠ "" then it.targetReason ++ " + "
                             else it.targetReason) ++ "unique(+1s steps)" } := by
              simp [bumpRecord, hT, hc]
            rw [h1]
            have hnb : ¬ (pt + step ≤ pt) := by omega
            simp [bumpRecord, hc.1, hnb]
          · have h1 : bumpRecord step (some pt) it = it := by
              simp [bumpRecord, hT, hc]
            rw [h1, h1]

theorem uniqGo_idem (step : Int) (hstep : 0 < step) : ∀ (l : List Item) (prevT : Option Int),
    uniqGo step prevT (uniqGo step prevT l) = uniqGo step prevT l := by
  intro l
  induction l with
  | nil => intro prevT; rfl
  | cons it rest ih =>
      intro prevT
      simp only [uniqGo, bumpRecord_idem step hstep]
      rw [ih]

theorem uniqGo_target_isSome (step : Int) : ∀ (l : List Item) (prevT : Option Int),
    (∀ x ∈ l, x.target.isSome) → ∀ y ∈ uniqGo step prevT l, y.target.isSome := by
  intro l
  induction l with
  | nil => intro prevT h y hy; simp [uniqGo] at hy
  | cons it rest ih =>
      intro prevT h y hy
      simp only [uniqGo, List.mem_cons] at hy
      rcases hy with hy | hy
      · subst hy
        rw [bumpRecord_target_isSome]
        exact h it (List.mem_cons_self it rest)
      · exact ih _ (fun x hx => h x (List.mem_cons_of_mem it hx)) y hy

/-! ### Pointwise relations for the gap-inference engine -/

/-- Each output record of the engine is its input record, possibly passed
through `setIfEmptyTarget`. -/
def InferRel (x y : Item) : Prop := y = x ∨ ∃ t r, y = setIfEmptyTarget t r x

theorem setIfEmptyTarget_of_some {x : Item} {s : Int} (hx : x.target = some s)
    (t : Int) (r : String) : setIfEmptyTarget t r x = x := by
  simp [setIfEmptyTarget, hx]

theorem setIfEmptyTarget_shot (t : Int) (r : String) (x : Item) :
    (setIfEmptyTarget t r x).shot = x.shot := by
  cases hx : x.target <;> simp [setIfEmptyTarget, hx]

theorem setIfEmptyTarget_target_isSome (t : Int) (r : String) (x : Item) :
    (setIfEmptyTarget t r x).target.isSome := by
  cases hx : x.target <;> simp [setIfEmptyTarget, hx]

theorem shot_isSome_of_not_missing {it : Item} (h : isMissingShot it = false) :
    it.shot.isSome := by
  cases hs : it.shot
  · rw [isMissingShot, hs] at h; simp at h
  · simp

theorem shot_none_of_missing {it : Item} (h : isMissingShot it = true) :
    it.shot = none := by
  cases hs : it.shot
  · rfl
  · rw [isMissingShot, hs] at h; simp at h

theorem cons_split_missing {it : Item} {rest : List Item}
    (h : isMissingShot it = true) :
    (it :: rest).takeWhile isMissingShot ++ rest.dropWhile isMissingShot = it :: rest := by
  have hdw : rest.dropWhile isMissingShot = (it :: rest).dropWhile isMissingShot := by
    rw [List.dropWhile_cons, if_pos h]
  rw [hdw]
  exact List.takeWhile_append_dropWhile _ _

theorem fillSegGo_forall₂ (opt : Options) (Tp Tn : Option Int) (m : Nat) :
    ∀ (k : Nat) (l : List Item), List.Forall₂ InferRel l (fillSegGo opt Tp Tn m k l) := by
  intro k l
  induction l generalizing k with
  | nil => exact List.Forall₂.nil
  | cons it rest ih =>
      refine List.Forall₂.cons ?_ (ih (k + 1))
      rw [applySegTime]
      cases segTime opt Tp Tn m k with
      | none => exact Or.inl rfl
      | some tr => exact Or.inr ⟨tr.1, tr.2, rfl⟩

theorem inferGo_forall₂_fuel (opt : Options) :
    ∀ (n : Nat) (l : List Item), l.length ≤ n → ∀ Tp,
      List.Forall₂ InferRel l (inferGo opt Tp l) := by
  intro n
  induction n with
  | zero =>
      intro l hl Tp
      have h0 : l = [] := List.length_eq_zero.mp (Nat.le_zero.mp hl)
      subst h0
      rw [inferGo_nil]
      exact List.Forall₂.nil
  | succ n ih =>
      intro l hl Tp
      cases l with
      | nil => rw [inferGo_nil]; exact List.Forall₂.nil
      | cons it rest =>
          have hrest : rest.length ≤ n := by
            simpa using Nat.le_of_succ_le_succ (by simpa using hl)
          by_cases h : isMissingShot it = true
          · rw [inferGo_cons_missing opt Tp it rest h]
            have h1 : List.Forall₂ InferRel ((it :: rest).takeWhile isMissingShot)
                (fillSeg opt Tp ((rest.dropWhile isMissingShot).head?.bind (fun x => x.shot))
                  ((it :: rest).takeWhile isMissingShot)) :=
              fillSegGo_forall₂ _ _ _ _ _ _
            have h2 : List.Forall₂ InferRel (rest.dropWhile isMissingShot)
                (inferGo opt Tp (rest.dropWhile isMissingShot)) :=
              ih _ (le_trans ((List.dropWhile_sublist _).length_le) hrest) Tp
            have h3 : List.Forall₂ InferRel
                ((it :: rest).takeWhile isMissingShot ++ rest.dropWhile isMissingShot)
                (fillSeg opt Tp ((rest.dropWhile isMissingShot).head?.bind (fun x => x.shot))
                    ((it :: rest).takeWhile isMissingShot)
                  ++ inferGo opt Tp (rest.dropWhile isMissingShot)) :=
              List.rel_append h1 h2
            rwa [cons_split_missing h] at h3
          · have h' : isMissingShot it = false := by simpa using h
            rw [inferGo_cons_anchor opt Tp it rest h']
            exact List.Forall₂.cons (Or.inl rfl) (ih rest hrest it.shot)

theorem inferGo_forall₂ (opt : Options) (Tp : Option Int) (l : List Item) :
    List.Forall₂ InferRel l (inferGo opt Tp l) :=
  inferGo_forall₂_fuel opt l.length l (le_refl _) Tp

theorem inferGo_preserves_set_target (opt : Options) (Tp : Option Int) (l : List Item)
    (i : Nat) (hi : i < l.length) (h : (l.get ⟨i, hi⟩).target.isSome) :
    (inferGo opt Tp l)[i]? = some (l.get ⟨i, hi⟩) := by
  have hf := inferGo_forall₂ opt Tp l
  have hlen := hf.length_eq
  have hi2 : i < (inferGo opt Tp l).length := hlen ▸ hi
  have hrel := (List.forall₂_iff_get.mp hf).2 i hi hi2
  obtain ⟨s, hs⟩ := Option.isSome_iff_exists.mp h
  have heq : (inferGo opt Tp l).get ⟨i, hi2⟩ = l.get ⟨i, hi⟩ := by
    rcases hrel with h1 | ⟨t, r, h1⟩
    · exact h1
    · rw [h1, setIfEmptyTarget_of_some hs]
  have hgg : (inferGo opt Tp l)[i]? = some ((inferGo opt Tp l).get ⟨i, hi2⟩) := by
    rw [List.getElem?_eq_getElem hi2]
    simp [List.get_eq_getElem]
  rw [hgg, heq]

/-! ### Coverage: which records get a target from the engine -/

theorem segTime_isSome (opt : Options) (m k : Nat) {Tp Tn : Option Int}
    (h : ¬ (Tp = none ∧ Tn = none)) :
    ∃ t r, segTime opt Tp Tn m k = some (t, r) := by
  cases Tp with
  | some p =>
      cases Tn with
      | some q =>
          rw [segTime]
          split_ifs <;> exact ⟨_, _, rfl⟩
      | none => exact ⟨_, _, rfl⟩
  | none =>
      cases Tn with
      | some q => exact ⟨_, _, rfl⟩
      | none => exact absurd ⟨rfl, rfl⟩ h

theorem fillSegGo_covers (opt : Options) {Tp Tn : Option Int}
    (h : ¬ (Tp = none ∧ Tn = none)) (m : Nat) :
    ∀ (k : Nat) (l : List Item) (y : Item), y ∈ fillSegGo opt Tp Tn m k l →
      y.target.isSome := by
  intro k l
  induction l generalizing k with
  | nil => intro y hy; simp [fillSegGo] at hy
  | cons it rest ih =>
      intro y hy
      simp only [fillSegGo, List.mem_cons] at hy
      rcases hy with hy | hy
      · subst hy
        obtain ⟨t, r, hseg⟩ := segTime_isSome opt m k h
        rw [applySegTime, hseg]
        exact setIfEmptyTarget_target_isSome t r it
      · exact ih (k + 1) y hy

theorem inferGo_covers_fuel (opt : Options) :
    ∀ (n : Nat) (l : List Item), l.length ≤ n → ∀ Tp,
      (Tp = none → ∃ x ∈ l, x.shot.isSome) →
      (∀ x ∈ l, x.shot.isSome → x.target.isSome) →
      ∀ y ∈ inferGo opt Tp l, y.target.isSome := by
  intro n
  induction n with
  | zero =>
      intro l hl Tp h1 h2 y hy
      have h0 : l = [] := List.length_eq_zero.mp (Nat.le_zero.mp hl)
      subst h0
      rw [inferGo_nil] at hy
      simp at hy
  | succ n ih =>
      intro l hl Tp h1 h2 y hy
      cases l with
      | nil => rw [inferGo_nil] at hy; simp at hy
      | cons it rest =>
          have hrest : rest.length ≤ n := by
            simpa using Nat.le_of_succ_le_succ (by simpa using hl)
          by_cases h : isMissingShot it = true
          · rw [inferGo_cons_missing opt Tp it rest h] at hy
            have hTc : ¬ (Tp = none ∧
                ((rest.dropWhile isMissingShot).head?.bind (fun x => x.shot)) = none) := by
              rintro ⟨hTp, hTn⟩
              obtain ⟨x, hx, hxs⟩ := h1 hTp
              have hx2 : x ∈ (it :: rest).takeWhile isMissingShot
                  ++ rest.dropWhile isMissingShot := by
                rw [cons_split_missing h]; exact hx
              rcases List.mem_append.mp hx2 with hxa | hxb
              · have hm := List.mem_takeWhile_imp hxa
                rw [shot_none_of_missing hm] at hxs
                simp at hxs
              · cases hr2 : rest.dropWhile isMissingShot with
                | nil => rw [hr2] at hxb; simp at hxb
                | cons z zs =>
                    have hz : isMissingShot z = false := dropWhile_head_not hr2
                    obtain ⟨s, hs⟩ :=
                      Option.isSome_iff_exists.mp (shot_isSome_of_not_missing hz)
                    rw [hr2] at hTn
                    simp [hs] at hTn
            rcases List.mem_append.mp hy with hya | hyb
            · exact fillSegGo_covers opt hTc _ _ _ y hya
            · refine ih (rest.dropWhile isMissingShot)
                (le_trans ((List.dropWhile_sublist _).length_le) hrest) Tp ?_ ?_ y hyb
              · intro hTp
                cases hr2 : rest.dropWhile isMissingShot with
                | nil =>
                    exfalso
                    exact hTc ⟨hTp, by rw [hr2]; rfl⟩
                | cons z zs =>
                    have hz : isMissingShot z = false := dropWhile_head_not hr2
                    exact ⟨z, List.mem_cons_self z zs,
                      shot_isSome_of_not_missing hz⟩
              · intro x hx hxs
                exact h2 x (List.mem_cons_of_mem it ((List.dropWhile_sublist _).subset hx)) hxs
          · have h' : isMissingShot it = false := by simpa using h
            rw [inferGo_cons_anchor opt Tp it rest h'] at hy
            rcases List.mem_cons.mp hy with hy | hy
            · subst hy
              exact h2 y (List.mem_cons_self y rest) (shot_isSome_of_not_missing h')
            · refine ih rest hrest it.shot ?_ ?_ y hy
              · intro he
                exfalso
                have := shot_isSome_of_not_missing h'
                rw [he] at this
                simp at this
              · intro x hx hxs
                exact h2 x (List.mem_cons_of_mem it hx) hxs

/-! ### The engine is the identity on fully-resolved sequences -/

theorem fillSegGo_id (opt : Options) (Tp Tn : Option Int) (m : Nat) :
    ∀ (k : Nat) (l : List Item), (∀ x ∈ l, x.target.isSome) →
      fillSegGo opt Tp Tn m k l = l := by
  intro k l
  induction l generalizing k with
  | nil => intro h; rfl
  | cons it rest ih =>
      intro h
      obtain ⟨s, hs⟩ :=
        Option.isSome_iff_exists.mp (h it (List.mem_cons_self it rest))
      have hhead : applySegTime opt Tp Tn m k it = it := by
        rw [applySegTime]
        cases segTime opt Tp Tn m k with
        | none => rfl
        | some tr => exact setIfEmptyTarget_of_some hs tr.1 tr.2
      rw [fillSegGo, hhead, ih (k + 1) (fun x hx => h x (List.mem_cons_of_mem it hx))]

theorem inferGo_id_fuel (opt : Options) :
    ∀ (n : Nat) (l : List Item), l.length ≤ n → ∀ Tp,
      (∀ x ∈ l, x.target.isSome) → inferGo opt Tp l = l := by
  intro n
  induction n with
  | zero =>
      intro l hl Tp h
      have h0 : l = [] := List.length_eq_zero.mp (Nat.le_zero.mp hl)
      subst h0
      exact inferGo_nil opt Tp
  | succ n ih =>
      intro l hl Tp hall
      cases l with
      | nil => exact inferGo_nil opt Tp
      | cons it rest =>
          have hrest : rest.length ≤ n := by
            simpa using Nat.le_of_succ_le_succ (by simpa using hl)
          by_cases h : isMissingShot it = true
          · have hta : ∀ x ∈ (it :: rest).takeWhile isMissingShot, x.target.isSome :=
              fun x hx => hall x ((List.takeWhile_sublist _).subset hx)
            have hda : ∀ x ∈ rest.dropWhile isMissingShot, x.target.isSome :=
              fun x hx =>
                hall x (List.mem_cons_of_mem it ((List.dropWhile_sublist _).subset hx))
            rw [inferGo_cons_missing opt Tp it rest h, fillSeg, fillSegGo_id _ _ _ _ _ _ hta,
              ih _ (le_trans ((List.dropWhile_sublist _).length_le) hrest) Tp hda,
              cons_split_missing h]
          · have h' : isMissingShot it = false := by simpa using h
            rw [inferGo_cons_anchor opt Tp it rest h',
              ih rest hrest it.shot (fun x hx => hall x (List.mem_cons_of_mem it hx))]

theorem inferGo_id (opt : Options) (Tp : Option Int) (l : List Item)
    (h : ∀ x ∈ l, x.target.isSome) : inferGo opt Tp l = l :=
  inferGo_id_fuel opt l.length l (le_refl _) Tp h

/-! ### Shot and target preservation of the per-record stages -/

theorem applyFilenameOverrideForTarget_shot (opt : Options) (it : Item) :
    (applyFilenameOverrideForTarget opt it).shot = it.shot := by
  unfold applyFilenameOverrideForTarget
  dsimp only
  repeat' split
  all_goals rfl

theorem assignTargetFromShot_shot (it : Item) :
    (assignTargetFromShot it).shot = it.shot := by
  unfold assignTargetFromShot
  repeat' split
  all_goals rfl

theorem assignTargetFromShot_covers (it : Item) (h : it.shot.isSome) :
    (assignTargetFromShot it).target.isSome := by
  obtain ⟨s, hs⟩ := Option.isSome_iff_exists.mp h
  cases ht : it.target with
  | none => simp [assignTargetFromShot, ht, hs]
  | some u => simp [assignTargetFromShot, ht, hs]

theorem assignTargetFromShot_of_target_some {it : Item} {t : Int}
    (h : it.target = some t) : assignTargetFromShot it = it := by
  simp [assignTargetFromShot, h]

theorem option_elim_none_some (o : Option Int) : o.elim none some = o := by
  cases o <;> rfl

/-! ### Claims -/

/-- C8: for every record whose target was set by the Override Resolver or
by Default Assignment, the Gap-Inference Engine leaves the record (its
target and its reason) unchanged: it only fills records whose target is
still unset. -/
theorem c8_engine_never_overwrites (opt : Options) (items : List Item) (i : Nat)
    (hi : i < items.length) (h : (items.get ⟨i, hi⟩).target.isSome) :
    (inferMissingByInterpolation opt items)[i]? = some (items.get ⟨i, hi⟩) :=
  inferGo_preserves_set_target opt none items i hi h

theorem c8_witness :
    ([filledRec 7].get ⟨0, by decide⟩).target.isSome = true ∧
    (inferMissingByInterpolation defaultOptions [filledRec 7])[0]? =
      some ([filledRec 7].get ⟨0, by decide⟩) :=
  ⟨by decide, c8_engine_never_overwrites defaultOptions [filledRec 7] 0 (by decide) (by decide)⟩

/-- C9: running the Gap-Inference Engine and then the Uniqueness Pass a
second time on a fully-resolved pipeline output (every target slot
occupied) changes nothing. -/
theorem c9_second_run_id (opt : Options) (items0 : List Item)
    (h : ∀ it ∈ makeFilledTargetsStrictlyIncreasing opt
        (inferMissingByInterpolation opt items0), it.target.isSome) :
    makeFilledTargetsStrictlyIncreasing opt (inferMissingByInterpolation opt
        (makeFilledTargetsStrictlyIncreasing opt (inferMissingByInterpolation opt items0)))
      = makeFilledTargetsStrictlyIncreasing opt (inferMissingByInterpolation opt items0) := by
  have hstep : (0 : Int) < max 1 opt.oneSideStepSeconds :=
    lt_of_lt_of_le one_pos (le_max_left _ _)
  rw [inferMissingByInterpolation, inferGo_id opt none _ h]
  rw [makeFilledTargetsStrictlyIncreasing, makeFilledTargetsStrictlyIncreasing,
    inferMissingByInterpolation]
  exact uniqGo_idem (max 1 opt.oneSideStepSeconds) hstep _ none

theorem c9_witness :
    (∀ it ∈ makeFilledTargetsStrictlyIncreasing defaultOptions
        (inferMissingByInterpolation defaultOptions [anchorRec 100]), it.target.isSome) ∧
    makeFilledTargetsStrictlyIncreasing defaultOptions (inferMissingByInterpolation defaultOptions
        (makeFilledTargetsStrictlyIncreasing defaultOptions
          (inferMissingByInterpolation defaultOptions [anchorRec 100])))
      = makeFilledTargetsStrictlyIncreasing defaultOptions
          (inferMissingByInterpolation defaultOptions [anchorRec 100]) := by
  have h1 : inferMissingByInterpolation defaultOptions [anchorRec 100] = [anchorRec 100] := by
    rw [inferMissingByInterpolation]
    exact inferGo_id _ _ _ (by decide)
  have hall : ∀ it ∈ makeFilledTargetsStrictlyIncreasing defaultOptions
      (inferMissingByInterpolation defaultOptions [anchorRec 100]), it.target.isSome := by
    rw [h1]
    decide
  exact ⟨hall, c9_second_run_id defaultOptions [anchorRec 100] hall⟩

/-- C5 counterexample: a record whose target was set by the Override
Resolver but which has no anchor IS bumped by the Uniqueness Pass.  The
second record gets target 50 from the filename override, yet the full
pipeline ends with its target at 101 (bumped past the anchor record's
100), so the pass did not leave the override target unchanged. -/
theorem c5_override_bumped_cex :
    ((List.map (applyFilenameOverrideForTarget defaultOptions)
        [anchorNoTargetRec 100, overrideCandidateRec])[1]?).map (fun x => x.target)
      = some (some 50) ∧
    ((resolveTargets defaultOptions
        [anchorNoTargetRec 100, overrideCandidateRec])[1]?).map (fun x => x.target)
      = some (some 101) ∧
    ¬ ((50 : Int) = 101) := by
  refine ⟨by decide, ?_, by decide⟩
  have h1 : List.map assignTargetFromShot
      (List.map (applyFilenameOverrideForTarget defaultOptions)
        [anchorNoTargetRec 100, overrideCandidateRec]) =
      [⟨0, none, none, none, some 100, ShotSource.exifOrXmp, some 100, "shot from metadata"⟩,
       ⟨10000000, none, none, some 50, none, ShotSource.noneSrc, some 50,
        "filename override (mtime too far)"⟩] := by decide
  have h2 : inferMissingByInterpolation defaultOptions
      [⟨0, none, none, none, some 100, ShotSource.exifOrXmp, some 100, "shot from metadata"⟩,
       ⟨10000000, none, none, some 50, none, ShotSource.noneSrc, some 50,
        "filename override (mtime too far)"⟩] =
      [⟨0, none, none, none, some 100, ShotSource.exifOrXmp, some 100, "shot from metadata"⟩,
       ⟨10000000, none, none, some 50, none, ShotSource.noneSrc, some 50,
        "filename override (mtime too far)"⟩] := by
    rw [inferMissingByInterpolation]
    exact inferGo_id _ _ _ (by decide)
  rw [resolveTargets]
  rw [if_pos (by decide : defaultOptions.enableFilenameOverrideForTarget = true)]
  rw [h1, h2]
  decide

/-- C5 amended: the Uniqueness Pass never changes a record that carries an
anchor (`shot` set); an override record WITHOUT an anchor counts as
inferred and can be bumped, as the counterexample shows. -/
theorem c5_anchor_never_bumped (opt : Options) (items : List Item) (i : Nat)
    (hi : i < items.length) (h : (items.get ⟨i, hi⟩).shot.isSome) :
    (makeFilledTargetsStrictlyIncreasing opt items)[i]? = some (items.get ⟨i, hi⟩) := by
  rw [makeFilledTargetsStrictlyIncreasing, uniqGo_getElem?, List.getElem?_eq_getElem hi]
  exact congrArg some (bumpRecord_shot_some _ _ _ h)

theorem c5_witness :
    ([anchorRec 100, filledRec 99].get ⟨0, by decide⟩).shot.isSome = true ∧
    (makeFilledTargetsStrictlyIncreasing defaultOptions [anchorRec 100, filledRec 99])[0]? =
      some ([anchorRec 100, filledRec 99].get ⟨0, by decide⟩) :=
  ⟨by decide,
    c5_anchor_never_bumped defaultOptions [anchorRec 100, filledRec 99] 0 (by decide) (by decide)⟩

/-- C2: the Uniqueness Pass is a left-to-right sweep: its output has the
same length as its input, and the record at each position is the input
record passed through the bump rule, where the tracked `prevTarget` is
exactly the last resolved final target among the output records before
that position (of any origin); records that carry an anchor are never
changed; and in the concrete example an anchor at target 100 followed by
an inferred record with raw target 99 leaves the latter at 101. -/
theorem c2_uniqueness_sweep (opt : Options) (items : List Item) :
    (makeFilledTargetsStrictlyIncreasing opt items).length = items.length ∧
    (∀ (i : Nat) (hi : i < items.length),
      (makeFilledTargetsStrictlyIncreasing opt items)[i]? =
        some (bumpRecord (max 1 opt.oneSideStepSeconds)
          (lastResolved ((makeFilledTargetsStrictlyIncreasing opt items).take i))
          (items.get ⟨i, hi⟩))) ∧
    (∀ (i : Nat) (hi : i < items.length), (items.get ⟨i, hi⟩).shot.isSome →
      (makeFilledTargetsStrictlyIncreasing opt items)[i]? = some (items.get ⟨i, hi⟩)) ∧
    ((makeFilledTargetsStrictlyIncreasing defaultOptions
        [anchorRec 100, filledRec 99])[1]?).map (fun x => x.target) = some (some 101) := by
  have key : ∀ (i : Nat) (hi : i < items.length),
      (makeFilledTargetsStrictlyIncreasing opt items)[i]? =
        some (bumpRecord (max 1 opt.oneSideStepSeconds)
          (lastResolved ((makeFilledTargetsStrictlyIncreasing opt items).take i))
          (items.get ⟨i, hi⟩)) := by
    intro i hi
    rw [makeFilledTargetsStrictlyIncreasing, uniqGo_getElem?, List.getElem?_eq_getElem hi,
      foldl_updatePrev_eq, option_elim_none_some]
    rfl
  refine ⟨length_uniqGo _ _ _, key, ?_, by decide⟩
  intro i hi h
  rw [key i hi, bumpRecord_shot_some _ _ _ h]

theorem c2_witness :
    (1 : Nat) < 2 ∧
    (makeFilledTargetsStrictlyIncreasing defaultOptions [anchorRec 100, filledRec 99])[1]? =
      some (bumpRecord (max 1 defaultOptions.oneSideStepSeconds)
        (lastResolved ((makeFilledTargetsStrictlyIncreasing defaultOptions
          [anchorRec 100, filledRec 99]).take 1))
        ([anchorRec 100, filledRec 99].get ⟨1, by decide⟩)) :=
  ⟨by decide,
    (c2_uniqueness_sweep defaultOptions [anchorRec 100, filledRec 99]).2.1 1 (by decide)⟩

/-- C4: with overriding enabled and a filename-derived time `F` present,
a record with both reference times (create and write) gets `target = F`
iff BOTH absolute drifts from `F` exceed the day threshold in seconds;
with the reference pair unavailable the single available reference is the
modification time and `target = F` iff its drift exceeds the threshold;
and a record whose target was set this way is not touched by Default
Assignment. -/
theorem c4_override_drift_rule (opt : Options) (it : Item) (F : Int)
    (hen : opt.enableFilenameOverrideForTarget = true)
    (hF : it.fnameTime = some F) (ht : it.target = none) :
    (∀ c w, it.ctime = some c → it.wtime = some w →
      ((applyFilenameOverrideForTarget opt it).target = some F ↔
        absDiffSec c F > opt.filenameOverrideDays * 86400 ∧
          absDiffSec w F > opt.filenameOverrideDays * 86400)) ∧
    ((it.ctime = none ∨ it.wtime = none) →
      ((applyFilenameOverrideForTarget opt it).target = some F ↔
        absDiffSec it.mtime F > opt.filenameOverrideDays * 86400)) ∧
    ((applyFilenameOverrideForTarget opt it).target = some F →
      assignTargetFromShot (applyFilenameOverrideForTarget opt it) =
        applyFilenameOverrideForTarget opt it) := by
  have hflag : ¬ (opt.enableFilenameOverrideForTarget = false) := by simp [hen]
  refine ⟨?_, ?_, ?_⟩
  · intro c w hc hw
    rw [applyFilenameOverrideForTarget, if_neg hflag]
    simp only [hF, hc, hw]
    by_cases hcond : absDiffSec c F > opt.filenameOverrideDays * 86400 ∧
        absDiffSec w F > opt.filenameOverrideDays * 86400
    · simp [hcond]
    · simp only [if_neg hcond]
      simp [ht, hcond]
  · intro hcw
    rw [applyFilenameOverrideForTarget, if_neg hflag]
    simp only [hF]
    by_cases hcond : absDiffSec it.mtime F > opt.filenameOverrideDays * 86400
    · rcases hcw with hc | hw
      · simp [hc, hcond]
      · cases hcc : it.ctime <;> simp [hcc, hw, hcond]
    · rcases hcw with hc | hw
      · simp [hc, hcond, ht]
      · cases hcc : it.ctime <;> simp [hcc, hw, hcond, ht]
  · intro hset
    exact assignTargetFromShot_of_target_some hset

theorem c4_witness :
    (applyFilenameOverrideForTarget defaultOptions twoRefRec).target = some 100 ∧
    (applyFilenameOverrideForTarget defaultOptions oneRefRec).target = some 100 ∧
    assignTargetFromShot (applyFilenameOverrideForTarget defaultOptions twoRefRec) =
      applyFilenameOverrideForTarget defaultOptions twoRefRec := by
  have h2 := c4_override_drift_rule defaultOptions twoRefRec 100 rfl rfl rfl
  have h1 := c4_override_drift_rule defaultOptions oneRefRec 100 rfl rfl rfl
  have hset : (applyFilenameOverrideForTarget defaultOptions twoRefRec).target = some 100 :=
    (h2.1 2000000 3000000 rfl rfl).mpr (by decide)
  exact ⟨hset, (h1.2.1 (Or.inl rfl)).mpr (by decide), h2.2.2 hset⟩

/-- C10: if at least one record of the input has an anchor, the full
pipeline gives every record a target: only the no-anchor-on-either-side
regime leaves targets unset, and it cannot apply when some anchor exists. -/
theorem c10_all_targets_set (opt : Options) (items : List Item)
    (h : ∃ x ∈ items, x.shot.isSome) :
    ∀ y ∈ resolveTargets opt items, y.target.isSome := by
  intro y hy
  rw [resolveTargets] at hy
  have h1 : ∃ x ∈ (if opt.enableFilenameOverrideForTarget then
      items.map (applyFilenameOverrideForTarget opt) else items), x.shot.isSome := by
    obtain ⟨x, hx, hxs⟩ := h
    by_cases hf : opt.enableFilenameOverrideForTarget
    · refine ⟨applyFilenameOverrideForTarget opt x, ?_, ?_⟩
      · rw [if_pos hf]
        exact List.mem_map_of_mem _ hx
      · rw [applyFilenameOverrideForTarget_shot]
        exact hxs
    · rw [if_neg hf]
      exact ⟨x, hx, hxs⟩
  have h2 : ∃ x ∈ (if opt.enableFilenameOverrideForTarget then
      items.map (applyFilenameOverrideForTarget opt) else items).map assignTargetFromShot,
      x.shot.isSome := by
    obtain ⟨x, hx, hxs⟩ := h1
    refine ⟨assignTargetFromShot x, List.mem_map_of_mem _ hx, ?_⟩
    rw [assignTargetFromShot_shot]
    exact hxs
  have h2b : ∀ x ∈ (if opt.enableFilenameOverrideForTarget then
      items.map (applyFilenameOverrideForTarget opt) else items).map assignTargetFromShot,
      x.shot.isSome → x.target.isSome := by
    intro x hx hxs
    obtain ⟨z, hz, rfl⟩ := List.mem_map.mp hx
    rw [assignTargetFromShot_shot] at hxs
    exact assignTargetFromShot_covers z hxs
  exact uniqGo_target_isSome _ _ none
    (inferGo_covers_fuel opt _ _ (le_refl _) none (fun _ => h2) h2b) y hy

theorem c10_witness :
    (∃ x ∈ [anchorNoTargetRec 100, missingRec], x.shot.isSome) ∧
    ∀ y ∈ resolveTargets defaultOptions [anchorNoTargetRec 100, missingRec],
      y.target.isSome :=
  ⟨by decide, c10_all_targets_set defaultOptions [anchorNoTargetRec 100, missingRec] (by decide)⟩

theorem run_get_spec {run : List Item} {k : Nat}
    (hrun : ∀ x ∈ run, x.shot = none ∧ x.target = none)
    (hklt : k - 1 < run.length) :
    run[k - 1]? = some (run.get ⟨k - 1, hklt⟩) ∧
      (run.get ⟨k - 1, hklt⟩).target = none := by
  constructor
  · rw [List.getElem?_eq_getElem hklt]
    rfl
  · exact (hrun _ (List.get_mem run (k - 1) hklt)).2

/-- C1: on a two-sided segment with `|gap| ≤ gapLimit` and `|gap| ≥ m+1`,
the `k`-th record (1-indexed) receives `Tprev + gap·k/(m+1)` with the
division truncating toward zero, and every such target lies strictly
between the two anchor times. -/
theorem c1_interpolation (opt : Options) (pre post run : List Item) (a b : Item)
    (p q : Int) (k : Nat) (ha : a.shot = some p) (hb : b.shot = some q)
    (hrun : ∀ x ∈ run, x.shot = none ∧ x.target = none)
    (hk1 : 1 ≤ k) (hkm : k ≤ run.length)
    (hlim : ((q - p).natAbs : Int) ≤ opt.anchorGapLimitDays * 86400)
    (hbig : (run.length : Int) + 1 ≤ ((q - p).natAbs : Int)) :
    ∃ it, (inferMissingByInterpolation opt (pre ++ a :: (run ++ b :: post)))[pre.length + k]?
        = some it
      ∧ it.target = some (p + Int.tdiv ((q - p) * (k : Int)) ((run.length : Int) + 1))
      ∧ min p q < p + Int.tdiv ((q - p) * (k : Int)) ((run.length : Int) + 1)
      ∧ p + Int.tdiv ((q - p) * (k : Int)) ((run.length : Int) + 1) < max p q := by
  have hget := infer_two_sided_get opt pre post run a b p q k ha hb
    (fun x hx => (hrun x hx).1) hk1 hkm
  have hklt : k - 1 < run.length := by omega
  obtain ⟨hrg, hxt⟩ := run_get_spec hrun hklt
  have hseg : segTime opt (some p) (some q) run.length k =
      some (p + Int.tdiv ((q - p) * (k : Int)) ((run.length : Int) + 1),
        "interpolated between anchors") := by
    rw [segTime]
    rw [if_neg (not_lt.mpr hlim), if_neg (not_lt.mpr hbig)]
  rw [hget, hrg]
  refine ⟨_, rfl, ?_, ?_, ?_⟩
  · have hxt2 : run[k - 1].target = none := hxt
    rw [applySegTime, hseg]
    simp [setIfEmptyTarget, hxt2]
  all_goals {
    have hne : q - p ≠ 0 := by
      intro h0
      rw [h0] at hbig
      simp at hbig
      omega
    rcases lt_or_gt_of_ne hne with hneg | hpos
    · have hb2 := tdiv_bounds_neg (q - p) k run.length hk1 hkm hneg hbig
      have hqp : q < p := by omega
      first
      | (rw [min_eq_right (le_of_lt hqp)]; omega)
      | (rw [max_eq_left (le_of_lt hqp)]; omega)
    · have hint : ((q - p).natAbs : Int) = q - p :=
        Int.natAbs_of_nonneg (le_of_lt hpos)
      rw [hint] at hbig
      have hb2 := tdiv_bounds_pos (q - p) k run.length hk1 hkm hbig
      have hpq : p < q := by omega
      first
      | (rw [min_eq_left (le_of_lt hpq)]; omega)
      | (rw [max_eq_right (le_of_lt hpq)]; omega) }

theorem c1_witness :
    (∃ it, (inferMissingByInterpolation defaultOptions
        ([] ++ anchorNoTargetRec 0 :: ([missingRec, missingRec, missingRec]
          ++ anchorNoTargetRec 10 :: [])))[([] : List Item).length + 2]? = some it
      ∧ it.target = some ((0 : Int) + Int.tdiv (((10 : Int) - 0) * ((2 : Nat) : Int))
          ((([missingRec, missingRec, missingRec] : List Item).length : Int) + 1))
      ∧ min (0 : Int) 10 < (0 : Int) + Int.tdiv (((10 : Int) - 0) * ((2 : Nat) : Int))
          ((([missingRec, missingRec, missingRec] : List Item).length : Int) + 1)
      ∧ (0 : Int) + Int.tdiv (((10 : Int) - 0) * ((2 : Nat) : Int))
          ((([missingRec, missingRec, missingRec] : List Item).length : Int) + 1)
          < max (0 : Int) 10) ∧
    (0 : Int) + Int.tdiv (((10 : Int) - 0) * ((2 : Nat) : Int)) (((3 : Nat) : Int) + 1) = 5 ∧
    (0 : Int) + Int.tdiv (((10 : Int) - 0) * ((1 : Nat) : Int)) (((3 : Nat) : Int) + 1) = 2 ∧
    (0 : Int) + Int.tdiv (((10 : Int) - 0) * ((3 : Nat) : Int)) (((3 : Nat) : Int) + 1) = 7 :=
  ⟨c1_interpolation defaultOptions [] [] [missingRec, missingRec, missingRec]
      (anchorNoTargetRec 0) (anchorNoTargetRec 10) 0 10 2 rfl rfl (by decide)
      (by decide) (by decide) (by decide) (by decide),
    by decide, by decide, by decide⟩

/-- C3 counterexample: with both anchors at time 5 and one anchor-less
record between them (`gap = 0`, step-fill regime), the code's direction
test is `gap >= 0`, so `dir = 1` and the record receives `5 + 1·1·1 = 6`
— not the 5 that the claimed `sign(0) = 0` direction would give. -/
theorem c3_sign_zero_cex :
    ((inferMissingByInterpolation defaultOptions
        [anchorNoTargetRec 5, missingRec, anchorNoTargetRec 5])[1]?).map (fun x => x.target)
      = some (some 6) ∧
    ¬ (((inferMissingByInterpolation defaultOptions
        [anchorNoTargetRec 5, missingRec, anchorNoTargetRec 5])[1]?).map (fun x => x.target)
      = some (some 5)) := by
  have h2 : (inferMissingByInterpolation defaultOptions
      [anchorNoTargetRec 5, missingRec, anchorNoTargetRec 5])[1]? =
      ([missingRec][0]?).map (applySegTime defaultOptions (some 5) (some 5) 1 1) :=
    infer_two_sided_get defaultOptions [] [] [missingRec]
      (anchorNoTargetRec 5) (anchorNoTargetRec 5) 5 5 1 rfl rfl (by decide)
      (by decide) (by decide)
  rw [h2]
  exact ⟨by decide, by decide⟩

/-- C3 amended: on a two-sided segment with `|gap| ≤ gapLimit` and
`|gap| < m+1`, the `k`-th record receives `Tprev + dir·k·step` where the
direction is `+1` when `gap ≥ 0` (including `gap = 0`) and `-1` when
`gap < 0` — the code tests `gap >= 0`, not `sign(gap)`. -/
theorem c3_close_anchors_step_fill (opt : Options) (pre post run : List Item) (a b : Item)
    (p q : Int) (k : Nat) (ha : a.shot = some p) (hb : b.shot = some q)
    (hrun : ∀ x ∈ run, x.shot = none ∧ x.target = none)
    (hk1 : 1 ≤ k) (hkm : k ≤ run.length)
    (hlim : ((q - p).natAbs : Int) ≤ opt.anchorGapLimitDays * 86400)
    (hclose : ((q - p).natAbs : Int) < (run.length : Int) + 1) :
    ∃ it, (inferMissingByInterpolation opt (pre ++ a :: (run ++ b :: post)))[pre.length + k]?
        = some it
      ∧ it.target = some (p + (if 0 ≤ q - p then 1 else -1) * (k : Int)
          * opt.oneSideStepSeconds) := by
  have hget := infer_two_sided_get opt pre post run a b p q k ha hb
    (fun x hx => (hrun x hx).1) hk1 hkm
  have hklt : k - 1 < run.length := by omega
  obtain ⟨hrg, hxt⟩ := run_get_spec hrun hklt
  have hxt2 : run[k - 1].target = none := hxt
  have hseg : segTime opt (some p) (some q) run.length k =
      some (p + (if 0 ≤ q - p then 1 else -1) * (k : Int) * opt.oneSideStepSeconds,
        "anchors too close -> step-filled") := by
    rw [segTime]
    rw [if_neg (not_lt.mpr hlim), if_pos hclose]
  rw [hget, hrg]
  refine ⟨_, rfl, ?_⟩
  rw [applySegTime, hseg]
  simp [setIfEmptyTarget, hxt2]

theorem c3_witness :
    (∃ it, (inferMissingByInterpolation defaultOptions
        ([] ++ anchorNoTargetRec 0 :: ([missingRec, missingRec, missingRec, missingRec,
          missingRec] ++ anchorNoTargetRec 2 :: [])))[([] : List Item).length + 3]? = some it
      ∧ it.target = some ((0 : Int) + (if (0 : Int) ≤ 2 - 0 then 1 else -1) * ((3 : Nat) : Int)
          * defaultOptions.oneSideStepSeconds)) ∧
    (0 : Int) + (if (0 : Int) ≤ 2 - 0 then 1 else -1) * ((3 : Nat) : Int)
      * defaultOptions.oneSideStepSeconds = 3 :=
  ⟨c3_close_anchors_step_fill defaultOptions [] []
      [missingRec, missingRec, missingRec, missingRec, missingRec]
      (anchorNoTargetRec 0) (anchorNoTargetRec 2) 0 2 3 rfl rfl (by decide)
      (by decide) (by decide) (by decide) (by decide),
    by decide⟩

/-- C6: on a two-sided segment with `|gap| > gapLimit`, no interpolation:
the record at 0-indexed segment position `j` receives `Tprev` when
`j < m/2` (integer division) and `Tnext` otherwise. -/
theorem c6_nearest_anchor_fill (opt : Options) (pre post run : List Item) (a b : Item)
    (p q : Int) (j : Nat) (ha : a.shot = some p) (hb : b.shot = some q)
    (hrun : ∀ x ∈ run, x.shot = none ∧ x.target = none) (hj : j < run.length)
    (hlim : opt.anchorGapLimitDays * 86400 < ((q - p).natAbs : Int)) :
    ∃ it, (inferMissingByInterpolation opt
        (pre ++ a :: (run ++ b :: post)))[pre.length + (j + 1)]? = some it
      ∧ it.target = some (if j < run.length / 2 then p else q) := by
  have hget := infer_two_sided_get opt pre post run a b p q (j + 1) ha hb
    (fun x hx => (hrun x hx).1) (by omega) (by omega)
  have hklt : (j + 1) - 1 < run.length := by omega
  obtain ⟨hrg, hxt⟩ := run_get_spec hrun hklt
  have hxt2 : run[j].target = none := hxt
  have hseg : segTime opt (some p) (some q) run.length (j + 1) =
      some (if (j + 1) - 1 < run.length / 2 then p else q,
        "gap too large -> nearest anchor fill") := by
    rw [segTime]
    rw [if_pos hlim]
  rw [hget, hrg]
  refine ⟨_, rfl, ?_⟩
  rw [applySegTime, hseg]
  simp only [Nat.add_sub_cancel]
  simp [setIfEmptyTarget, hxt2]

theorem c6_witness :
    (∃ it, (inferMissingByInterpolation defaultOptions
        ([] ++ anchorNoTargetRec 0 :: ([missingRec, missingRec, missingRec, missingRec]
          ++ anchorNoTargetRec 1000000000 :: [])))[([] : List Item).length + (1 + 1)]?
        = some it
      ∧ it.target = some (if 1 < ([missingRec, missingRec, missingRec, missingRec]
          : List Item).length / 2 then (0 : Int) else 1000000000)) ∧
    (∃ it, (inferMissingByInterpolation defaultOptions
        ([] ++ anchorNoTargetRec 0 :: ([missingRec, missingRec, missingRec, missingRec]
          ++ anchorNoTargetRec 1000000000 :: [])))[([] : List Item).length + (2 + 1)]?
        = some it
      ∧ it.target = some (if 2 < ([missingRec, missingRec, missingRec, missingRec]
          : List Item).length / 2 then (0 : Int) else 1000000000)) ∧
    (if 1 < ([missingRec, missingRec, missingRec, missingRec] : List Item).length / 2
      then (0 : Int) else 1000000000) = 0 ∧
    (if 2 < ([missingRec, missingRec, missingRec, missingRec] : List Item).length / 2
      then (0 : Int) else 1000000000) = 1000000000 :=
  ⟨c6_nearest_anchor_fill defaultOptions [] []
      [missingRec, missingRec, missingRec, missingRec]
      (anchorNoTargetRec 0) (anchorNoTargetRec 1000000000) 0 1000000000 1 rfl rfl
      (by decide) (by decide) (by decide),
    c6_nearest_anchor_fill defaultOptions [] []
      [missingRec, missingRec, missingRec, missingRec]
      (anchorNoTargetRec 0) (anchorNoTargetRec 1000000000) 0 1000000000 2 rfl rfl
      (by decide) (by decide) (by decide),
    by decide, by decide⟩

/-- C7: one-sided segments.  With only a previous anchor `Tprev`, the
`k`-th record receives `Tprev + k·step` when stepping is enabled and
`Tprev` otherwise.  With only a next anchor `Tnext` and stepping enabled,
the `k`-th record receives `Tnext − (m−k+1)·step`, which is strictly
before the anchor (so the last record sits at `Tnext − step`). -/
theorem c7_one_sided_fill (opt : Options) :
    (∀ (pre run : List Item) (a : Item) (p : Int) (k : Nat),
      a.shot = some p → (∀ x ∈ run, x.shot = none ∧ x.target = none) →
      1 ≤ k → k ≤ run.length →
      ∃ it, (inferMissingByInterpolation opt (pre ++ a :: run))[pre.length + k]? = some it
        ∧ it.target = some (if opt.oneSideStep then p + (k : Int) * opt.oneSideStepSeconds
            else p)) ∧
    (∀ (run post : List Item) (b : Item) (q : Int) (k : Nat),
      b.shot = some q → (∀ x ∈ run, x.shot = none ∧ x.target = none) →
      1 ≤ k → k ≤ run.length → opt.oneSideStep = true → 1 ≤ opt.oneSideStepSeconds →
      ∃ it, (inferMissingByInterpolation opt (run ++ b :: post))[k - 1]? = some it
        ∧ it.target = some (q - ((run.length : Int) - (k : Int) + 1)
            * opt.oneSideStepSeconds)
        ∧ q - ((run.length : Int) - (k : Int) + 1) * opt.oneSideStepSeconds < q) := by
  constructor
  · intro pre run a p k ha hrun hk1 hkm
    have hget := infer_one_sided_prev_get opt pre run a p k ha
      (fun x hx => (hrun x hx).1) hk1 hkm
    have hklt : k - 1 < run.length := by omega
    obtain ⟨hrg, hxt⟩ := run_get_spec hrun hklt
    have hxt2 : run[k - 1].target = none := hxt
    rw [hget, hrg]
    refine ⟨_, rfl, ?_⟩
    rw [applySegTime]
    simp [segTime, setIfEmptyTarget, hxt2]
  · intro run post b q k hb hrun hk1 hkm hstep hsec
    have hget := infer_one_sided_next_get opt run post b q k hb
      (fun x hx => (hrun x hx).1) hk1 hkm
    have hklt : k - 1 < run.length := by omega
    obtain ⟨hrg, hxt⟩ := run_get_spec hrun hklt
    have hxt2 : run[k - 1].target = none := hxt
    rw [hget, hrg]
    refine ⟨_, rfl, ?_, ?_⟩
    · rw [applySegTime]
      simp [segTime, setIfEmptyTarget, hxt2, hstep]
    · have hk2 : (k : Int) ≤ (run.length : Int) := by exact_mod_cast hkm
      have hpos : 0 < ((run.length : Int) - (k : Int) + 1) * opt.oneSideStepSeconds :=
        mul_pos (by omega) (by omega)
      linarith

theorem c7_witness :
    (∃ it, (inferMissingByInterpolation defaultOptions
        ([] ++ anchorNoTargetRec 100 :: [missingRec, missingRec, missingRec]))[
          ([] : List Item).length + 2]? = some it
      ∧ it.target = some (if defaultOptions.oneSideStep
          then (100 : Int) + ((2 : Nat) : Int) * defaultOptions.oneSideStepSeconds
          else 100)) ∧
    (if defaultOptions.oneSideStep
      then (100 : Int) + ((2 : Nat) : Int) * defaultOptions.oneSideStepSeconds
      else 100) = 102 ∧
    (∃ it, (inferMissingByInterpolation defaultOptions
        ([missingRec, missingRec, missingRec] ++ anchorNoTargetRec 500 :: []))[3 - 1]?
        = some it
      ∧ it.target = some ((500 : Int)
          - ((([missingRec, missingRec, missingRec] : List Item).length : Int)
            - ((3 : Nat) : Int) + 1) * defaultOptions.oneSideStepSeconds)
      ∧ (500 : Int) - ((([missingRec, missingRec, missingRec] : List Item).length : Int)
            - ((3 : Nat) : Int) + 1) * defaultOptions.oneSideStepSeconds < 500) ∧
    (500 : Int) - ((([missingRec, missingRec, missingRec] : List Item).length : Int)
      - ((3 : Nat) : Int) + 1) * defaultOptions.oneSideStepSeconds = 499 :=
  ⟨(c7_one_sided_fill defaultOptions).1 [] [missingRec, missingRec, missingRec]
      (anchorNoTargetRec 100) 100 2 rfl (by decide) (by decide) (by decide),
    by decide,
    (c7_one_sided_fill defaultOptions).2 [missingRec, missingRec, missingRec] []
      (anchorNoTargetRec 500) 500 3 rfl (by decide) (by decide) (by decide) rfl (by decide),
    by decide⟩
